import Mathlib

/-!
Verification of the VT Shared Governance Tracker core logic.

The source is a browser application whose state lives in `localStorage`
under four keys (session, submissions, meetings override, assignments
override).  We embed that store as a record whose cells are either
absent, corrupt (persisted text that is not valid structured data, the
case the source's `try { JSON.parse ... } catch` recovers from), or a
decoded value.  Writes always store `JSON.stringify` of a plain record,
which parses back to the same value, so a write is modelled as storing
the value itself.

JavaScript field values that the import path inspects may be absent
(`undefined`), `null`, or a string; `JStr` mirrors that, with JS
truthiness (`undefined`, `null` and `""` are falsy) and strict equality
(`===`).
-/

/-- A JavaScript string-ish field value: `undefined`, `null`, or a string. -/
inductive JStr where
  | undef
  | null
  | str (s : String)
deriving DecidableEq

/-- JS truthiness of a `JStr`: `undefined`, `null` and `""` are falsy. -/
def JStr.truthy : JStr → Bool
  | .str s => s ≠ ""
  | _ => false

/-- JS strict equality (`===`) on `JStr` values. -/
def JStr.strictEq : JStr → JStr → Bool
  | .undef, .undef => true
  | .null, .null => true
  | .str a, .str b => a == b
  | _, _ => false

/-- A submission record (`handleSubmission` / import entries).  Fields
that the import path inspects may be `undefined`/`null` in imported
JSON, hence `JStr`. -/
structure Submission where
  pid : JStr
  committeeName : JStr
  meetingName : JStr
  meetingDate : JStr
  meetingId : JStr
  timestamp : JStr
  attendanceConfirmed : Bool
  notes : JStr
  attachmentName : JStr
  attachmentData : JStr
deriving DecidableEq

/-- A meeting record from `meetings.json` / the meetings override. -/
structure Meeting where
  id : String
  committee : String
  name : String
  date : String
  time : String
  location : String
deriving DecidableEq

/-- A committee-assignment record from `assignments.json` / the override. -/
structure Assignment where
  pid : String
  committees : List String
deriving DecidableEq

/-- A user-directory entry from `users.json`. -/
structure User where
  pid : String
  password : String
  role : String
deriving DecidableEq

/-- A persisted `localStorage` cell: absent (`getItem` returns `null`),
corrupt (present but not parsable as the expected structured data, or the
empty string which is falsy), or a decoded value. -/
inductive Stored (α : Type) where
  | absent
  | corrupt
  | val (a : α)
deriving DecidableEq

/-- The `localStorage` cells the data layer uses (the session cell is
irrelevant to the data-override claims and omitted). -/
structure GovStorage where
  submissions : Stored (List Submission)
  meetingsOverride : Stored (List Meeting)
  assignmentsOverride : Stored (List Assignment)
deriving DecidableEq

/-- Source `getSubmissions`: parses the stored submissions blob, returning `[]`
when the cell is absent, empty, or unparsable (the `catch` branch). -/
def getSubmissions (st : GovStorage) : List Submission :=
  match st.submissions with
  | .val l => l
  | _ => []

/-- Source `saveSubmission`: read-all, push, write-all. -/
def saveSubmission (st : GovStorage) (submission : Submission) : GovStorage :=
  { st with submissions := .val (getSubmissions st ++ [submission]) }

/-- Source `getMeetingsWithOverride`: the persisted override if present and
parsable, else the caller-supplied static fallback. -/
def getMeetingsWithOverride (st : GovStorage) (meetingsFromFile : List Meeting) :
    List Meeting :=
  match st.meetingsOverride with
  | .val l => l
  | _ => meetingsFromFile

/-- Source `saveMeetingsOverride`: whole-list snapshot write. -/
def saveMeetingsOverride (st : GovStorage) (meetings : List Meeting) : GovStorage :=
  { st with meetingsOverride := .val meetings }

/-- Source `getAssignmentsWithOverride`: the persisted override if present and
parsable, else the caller-supplied static fallback. -/
def getAssignmentsWithOverride (st : GovStorage) (assignmentsFromFile : List Assignment) :
    List Assignment :=
  match st.assignmentsOverride with
  | .val l => l
  | _ => assignmentsFromFile

/-- Source `saveAssignmentsOverride`: whole-list snapshot write. -/
def saveAssignmentsOverride (st : GovStorage) (assignments : List Assignment) : GovStorage :=
  { st with assignmentsOverride := .val assignments }

/-- The decimal digit character for `d < 10`. -/
def digitChar (d : Nat) : Char := Char.ofNat (48 + d)

/-- Decimal rendering of a natural number, fuel-based so that it reduces
in the kernel; `natChars` supplies enough fuel.  Mirrors the template
interpolation `` `m${max + 1}` ``'s number-to-string conversion. -/
def natCharsAux : Nat → Nat → List Char
  | 0, _ => []
  | fuel + 1, n => if n < 10 then [digitChar n] else natCharsAux fuel (n / 10) ++ [digitChar (n % 10)]

/-- Decimal digit list of `n` (most significant first). -/
def natChars (n : Nat) : List Char := natCharsAux (n + 1) n

/-- The meeting id `"m" + n` as produced by `` `m${n}` ``. -/
def mId (n : Nat) : String := ⟨'m' :: natChars n⟩

/-- Digit extraction `(id || '').replace(/\D/g, '')`: the digit
characters of an id. -/
def digitsOf (id : String) : List Char := id.data.filter Char.isDigit

/-- Number of low bits an IEEE double drops when representing `n`: the
count of halvings needed to bring `n` below `2 ^ 53` (fuel-based; the
first argument is fuel, and `n` itself is always enough of it). -/
def dropBitsAux : Nat → Nat → Nat
  | 0, _ => 0
  | fuel + 1, n => if n < 2 ^ 53 then 0 else dropBitsAux fuel (n / 2) + 1

/-- Rounding of a nonnegative integer to the nearest IEEE-754 double
(ties to even significand).  Integers up to `2 ^ 53` are exactly
representable; above that, the low `k` bits are rounded away, where the
spacing of doubles is `2 ^ k`.  JavaScript's `parseInt`, and its `+ 1`
on a stored number, both round like this. -/
def roundToDouble (n : Nat) : Nat :=
  if n ≤ 2 ^ 53 then n
  else
    let k := dropBitsAux n n
    let p := 2 ^ k
    let q := n / p
    let r := n % p
    if r < p / 2 then q * p
    else if p / 2 < r then (q + 1) * p
    else if q % 2 = 0 then q * p else (q + 1) * p

/-- Behaviour of `parseInt` on a digit-only string: `NaN` (here `none`)
when empty, otherwise the decimal value rounded to the nearest double
(JS numbers are IEEE doubles, so digit strings above `2 ^ 53` lose
precision). -/
def parseDigits (cs : List Char) : Option Nat :=
  if cs.isEmpty then none
  else some (roundToDouble (cs.foldl (fun n c => n * 10 + (c.toNat - 48)) 0))

/-- The numeric content of a meeting id, as `parseInt((m.id || '').replace(/\D/g, ''), 10)`. -/
def idNumber (id : String) : Option Nat := parseDigits (digitsOf id)

/-- Source `meetings.map(...).filter(Boolean)`: `filter(Boolean)` drops both
`NaN` (unparsable, here `none`) and `0`. -/
def meetingIdNums (meetings : List Meeting) : List Nat :=
  ((meetings.map fun m => idNumber m.id).filterMap id).filter fun n => n ≠ 0

/-- Source `generateMeetingId`: `"m"` followed by `max + 1` computed in
double arithmetic — `Math.max(...ids)` compares the stored doubles
exactly (over a nonempty list of positive numbers it equals the fold
below; the empty case yields `0`), and the `+ 1` rounds to the nearest
double, which collapses back onto `max` at and above `2 ^ 53`.  The
rendering `` `m${...}` `` of an integral double up to `2 ^ 53` is its
exact decimal expansion (below that magnitude the shortest
round-tripping decimal needs every digit), which is what `mId`
produces; every statement below evaluates the generator only in that
range. -/
def generateMeetingId (meetings : List Meeting) : String :=
  let ids := meetingIdNums meetings
  let mx := if ids.isEmpty then 0 else ids.foldl max 0
  mId (roundToDouble (mx + 1))

/-- JS `String.prototype.trim`: strip leading and trailing whitespace. -/
def jsTrim (s : String) : String :=
  ⟨((s.data.dropWhile Char.isWhitespace).reverse.dropWhile Char.isWhitespace).reverse⟩

/-- Source `validateUser`: first directory entry whose trimmed pid matches the
trimmed input pid and whose password matches exactly. -/
def validateUser (pid password : String) (users : List User) : Option User :=
  users.find? fun u => jsTrim u.pid == jsTrim pid && u.password == password

/-- The per-entry validity check of the import path:
`s.pid && s.meetingName && s.timestamp`. -/
def validEntry (s : Submission) : Bool :=
  s.pid.truthy && s.meetingName.truthy && s.timestamp.truthy

/-- The duplicate test of the import path:
`m.pid === s.pid && m.meetingId === s.meetingId && m.timestamp === s.timestamp`. -/
def keyMatch (m s : Submission) : Bool :=
  m.pid.strictEq s.pid && m.meetingId.strictEq s.meetingId && m.timestamp.strictEq s.timestamp

/-- One step of the import loop body. -/
def importStep (merged : List Submission) (s : Submission) : List Submission :=
  if validEntry s then
    if merged.any fun m => keyMatch m s then merged else merged ++ [s]
  else merged

/-- The import merge loop: `imported.forEach(s => ...)` over the running
`merged` list. -/
def importMerge (existing imported : List Submission) : List Submission :=
  imported.foldl importStep existing

/-- Source `importSubmissions` after a successful top-level parse of a list:
merges into storage and returns the two numbers reported by
`` `Imported ${imported.length} submissions. Total: ${merged.length}` ``. -/
def importSubmissions (st : GovStorage) (imported : List Submission) :
    GovStorage × Nat × Nat :=
  let merged := importMerge (getSubmissions st) imported
  ({ st with submissions := .val merged }, imported.length, merged.length)

/-- JS `Array.prototype.sort()` on a list of strings: sorts by the string
order (ties are equal strings, so any sorted permutation is this one). -/
def jsSortStrings (l : List String) : List String :=
  l.insertionSort (· ≤ ·)

/-- The `addAssignment` click handler's update of the assignments list:
first record with matching pid gets the committee appended (if new) and
the list re-sorted; no matching record means a new record is appended. -/
def addAssignList (pid committee : String) : List Assignment → List Assignment
  | [] => [{ pid := pid, committees := [committee] }]
  | a :: rest =>
    if a.pid == pid then
      (if committee ∈ a.committees then a
       else { a with committees := jsSortStrings (a.committees ++ [committee]) }) :: rest
    else a :: addAssignList pid committee rest

/-- The `addAssignment` handler: trims both inputs, bails out when either
is empty (falsy), else updates the first matching record or appends. -/
def addAssignment (assignments : List Assignment) (pidRaw committeeRaw : String) :
    List Assignment :=
  let pid := jsTrim pidRaw
  let committee := jsTrim committeeRaw
  if pid = "" ∨ committee = "" then assignments
  else addAssignList pid committee assignments

/-- The `removeAssignment` click handler's update: first record with
matching pid has the committee filtered out; an emptied record is removed
(`splice`); no matching record means no change. -/
def removeAssignList (pid committee : String) : List Assignment → List Assignment
  | [] => []
  | a :: rest =>
    if a.pid == pid then
      let cs := a.committees.filter fun c => c ≠ committee
      if cs.isEmpty then rest else { a with committees := cs } :: rest
    else a :: removeAssignList pid committee rest

/-- The `removeAssignment` handler: trims both inputs, bails out when
either is empty, else updates or removes the first matching record. -/
def removeAssignment (assignments : List Assignment) (pidRaw committeeRaw : String) :
    List Assignment :=
  let pid := jsTrim pidRaw
  let committee := jsTrim committeeRaw
  if pid = "" ∨ committee = "" then assignments
  else removeAssignList pid committee assignments

/-- The committee-assignment invariant: each pid occurs in at most one
record, and each record's committees list is duplicate-free. -/
def AssignWF (assignments : List Assignment) : Prop :=
  (assignments.map Assignment.pid).Nodup ∧ ∀ a ∈ assignments, a.committees.Nodup

/-- The authenticated session as used by `handleSubmission`. -/
structure GovSession where
  pid : String
  role : String
deriving DecidableEq

/-- A picked file as seen by `handleSubmission`: name, byte size, and the
`readAsDataURL` text encoding of its contents. -/
structure FileBlob where
  name : String
  size : Nat
  dataUrl : String
deriving DecidableEq

/-- Source constant `MAX_ATTACHMENT_BYTES = 2 * 1024 * 1024`. -/
def MAX_ATTACHMENT_BYTES : Nat := 2 * 1024 * 1024

/-- The submission record `handleSubmission` builds before the attachment
branch (`now` is the `new Date().toISOString()` value). -/
def mkSubmission (session : GovSession) (meeting : Meeting) (attendance : Bool)
    (notes : String) (now : String) : Submission :=
  { pid := .str session.pid
    committeeName := .str meeting.committee
    meetingName := .str meeting.name
    meetingDate := .str meeting.date
    meetingId := .str meeting.id
    timestamp := .str now
    attendanceConfirmed := attendance
    notes := .str notes
    attachmentName := .undef
    attachmentData := .undef }

/-- Source `handleSubmission` with an optional attached file: an oversized file
aborts before any write (transient notice, storage untouched, the `Bool`
result records whether the submission was stored); otherwise the record
(with attachment fields when a file is present) is appended. -/
def handleSubmission (st : GovStorage) (session : GovSession) (meeting : Meeting)
    (attendance : Bool) (notes : String) (now : String) (file : Option FileBlob) :
    GovStorage × Bool :=
  let submission := mkSubmission session meeting attendance notes now
  match file with
  | some f =>
    if f.size > MAX_ATTACHMENT_BYTES then (st, false)
    else
      (saveSubmission st
        { submission with attachmentName := .str f.name, attachmentData := .str f.dataUrl },
       true)
  | none => (saveSubmission st submission, true)

/-- A meeting with id `"m1"` (from the seed data shape). -/
def sampleMeetingM1 : Meeting :=
  ⟨"m1", "Commission on Faculty Affairs", "CFA Meeting", "2025-02-27", "10:30 AM", "TBD"⟩

/-- A meeting with id `"m3"`. -/
def sampleMeetingM3 : Meeting :=
  ⟨"m3", "Student Life Committee", "SLC Meeting", "2025-03-01", "2:00 PM", "Squires"⟩

/-- The admin user from the seed directory. -/
def sampleUserAdmin : User := ⟨"admin001", "admin123", "admin"⟩

/-- The senator user from the seed directory. -/
def sampleUserSenator : User := ⟨"12345678", "senator1", "senator"⟩

/-- The seed user directory. -/
def sampleUsers : List User := [sampleUserAdmin, sampleUserSenator]

/-- A well-formed submission record. -/
def sampleSub : Submission :=
  ⟨.str "12345678", .str "Student Life Committee", .str "SLC Meeting", .str "2025-03-01",
   .str "m3", .str "2025-03-01T15:00:00.000Z", true, .str "notes", .undef, .undef⟩

/-- Storage already holding `sampleSub`. -/
def stOneSub : GovStorage := ⟨.val [sampleSub], .absent, .absent⟩

/-- An import entry that is valid but has no `meetingId`. -/
def s10a : Submission :=
  ⟨.str "p1", .undef, .str "Meeting A", .undef, .undef, .str "2025-01-01T00:00:00Z",
   true, .str "first", .undef, .undef⟩

/-- Same `(pid, meetingId, timestamp)` as `s10a`, different payload. -/
def s10b : Submission :=
  ⟨.str "p1", .undef, .str "Meeting A", .undef, .undef, .str "2025-01-01T00:00:00Z",
   false, .str "second", .undef, .undef⟩

/-- An import entry with a `null` pid. -/
def s10badNull : Submission :=
  ⟨.null, .undef, .str "Meeting A", .undef, .str "m1", .str "2025-01-01T00:00:00Z",
   true, .str "x", .undef, .undef⟩

/-- An import entry with an empty-string meeting name. -/
def s10badEmpty : Submission :=
  ⟨.str "p1", .undef, .str "", .undef, .str "m1", .str "2025-01-01T00:00:00Z",
   true, .str "x", .undef, .undef⟩

/-- An import entry with an absent timestamp. -/
def s10badUndef : Submission :=
  ⟨.str "p1", .undef, .str "Meeting A", .undef, .str "m1", .undef,
   true, .str "x", .undef, .undef⟩

/-- A senator session. -/
def sampleSession : GovSession := ⟨"12345678", "senator"⟩

/-- A file at exactly the 2 MiB limit. -/
def sampleFileOk : FileBlob := ⟨"notes.pdf", 2097152, "data:application/pdf;base64,AA"⟩

/-- A file one byte over the 2 MiB limit. -/
def sampleFileBig : FileBlob := ⟨"big.pdf", 2097153, "data:application/pdf;base64,BB"⟩

/-- Fresh storage: nothing persisted yet. -/
def emptyStorage : GovStorage := ⟨.absent, .absent, .absent⟩

/-- Storage where every persisted blob is unparsable. -/
def corruptStorage : GovStorage := ⟨.corrupt, .corrupt, .corrupt⟩

/-- A seed assignments list. -/
def sampleAssignments : List Assignment := [⟨"12345678", ["Academic Affairs Committee"]⟩]

/-- A meeting whose id carries the numeric content `2 ^ 53 =
9007199254740992`, the edge of the doubles' exact-integer range. -/
def bigMeeting : Meeting :=
  ⟨"m9007199254740992", "Commission on Faculty Affairs", "CFA Meeting",
   "2025-02-27", "10:30 AM", "TBD"⟩

/-- Claim C1: override precedence round-trip — for meetings, assignments and
submissions, writing a collection and then reading with any static fallback
returns exactly the written collection. -/
theorem override_write_read_roundtrip_c1 :
    ∀ (st : GovStorage) (xm fm : List Meeting) (xa fa : List Assignment)
      (sub : Submission) (l : List Submission),
    getMeetingsWithOverride (saveMeetingsOverride st xm) fm = xm ∧
    getAssignmentsWithOverride (saveAssignmentsOverride st xa) fa = xa ∧
    getSubmissions (saveSubmission st sub) = getSubmissions st ++ [sub] ∧
    getSubmissions (importSubmissions st l).1 = importMerge (getSubmissions st) l := by
  intro st xm fm xa fa sub l
  exact ⟨rfl, rfl, rfl, rfl⟩

/-- Claim C2: fallback and lenient corruption recovery — when the override
cell for an entity type is absent or unparsable, the read returns the
static fallback unchanged (for submissions, the built-in empty list), and
never throws (the read functions are total). -/
theorem override_fallback_recovery_c2 :
    ∀ (st : GovStorage) (fm : List Meeting) (fa : List Assignment),
    (st.meetingsOverride = .absent ∨ st.meetingsOverride = .corrupt →
      getMeetingsWithOverride st fm = fm) ∧
    (st.assignmentsOverride = .absent ∨ st.assignmentsOverride = .corrupt →
      getAssignmentsWithOverride st fa = fa) ∧
    (st.submissions = .absent ∨ st.submissions = .corrupt →
      getSubmissions st = []) := by
  intro st fm fa
  refine ⟨?_, ?_, ?_⟩ <;> rintro (h | h) <;>
    simp [getMeetingsWithOverride, getAssignmentsWithOverride, getSubmissions, h]

/-- Witness for C2 at concrete storages and a nonempty fallback. -/
theorem override_fallback_recovery_c2_witness :
    getMeetingsWithOverride corruptStorage [sampleMeetingM1] = [sampleMeetingM1] ∧
    getAssignmentsWithOverride emptyStorage sampleAssignments = sampleAssignments ∧
    getSubmissions corruptStorage = [] :=
  ⟨(override_fallback_recovery_c2 corruptStorage [sampleMeetingM1] sampleAssignments).1
      (Or.inr rfl),
   (override_fallback_recovery_c2 emptyStorage [sampleMeetingM1] sampleAssignments).2.1
      (Or.inl rfl),
   (override_fallback_recovery_c2 corruptStorage [sampleMeetingM1] sampleAssignments).2.2
      (Or.inr rfl)⟩

/-- Claim C7: recording is append-only — `saveSubmission` leaves the stored
collection equal to the prior one with the new record at the end, touches
no other cell, and performs no deduplication (saving twice stores twice). -/
theorem record_append_only_c7 :
    ∀ (st : GovStorage) (s : Submission),
    getSubmissions (saveSubmission st s) = getSubmissions st ++ [s] ∧
    (saveSubmission st s).meetingsOverride = st.meetingsOverride ∧
    (saveSubmission st s).assignmentsOverride = st.assignmentsOverride ∧
    getSubmissions (saveSubmission (saveSubmission st s) s) = getSubmissions st ++ [s, s] := by
  intro st s
  refine ⟨rfl, rfl, rfl, ?_⟩
  show (getSubmissions st ++ [s]) ++ [s] = getSubmissions st ++ [s, s]
  simp

/-- Claim C6: attachment size boundary and rejection atomicity — a file of
exactly 2,097,152 bytes is accepted and the record (with attachment fields)
is appended; a file of 2,097,153 bytes or more is rejected and storage is
left completely unchanged. -/
theorem attachment_boundary_c6 :
    ∀ (st : GovStorage) (session : GovSession) (meeting : Meeting) (att : Bool)
      (notes now : String) (f : FileBlob),
    (f.size = 2097152 →
      getSubmissions (handleSubmission st session meeting att notes now (some f)).1 =
        getSubmissions st ++
          [{ mkSubmission session meeting att notes now with
              attachmentName := .str f.name, attachmentData := .str f.dataUrl }] ∧
      (handleSubmission st session meeting att notes now (some f)).2 = true) ∧
    (2097153 ≤ f.size →
      handleSubmission st session meeting att notes now (some f) = (st, false)) := by
  intro st session meeting att notes now f
  constructor
  · intro h
    have hle : ¬ f.size > MAX_ATTACHMENT_BYTES := by
      simp [MAX_ATTACHMENT_BYTES, h]
    constructor <;> simp [handleSubmission, hle, getSubmissions, saveSubmission]
  · intro h
    have hgt : f.size > MAX_ATTACHMENT_BYTES := by
      simp only [MAX_ATTACHMENT_BYTES]
      omega
    simp [handleSubmission, hgt]

/-- Witness for C6 at the two boundary sizes. -/
theorem attachment_boundary_c6_witness :
    (getSubmissions
        (handleSubmission emptyStorage sampleSession sampleMeetingM1 true "n"
          "2025-01-01T00:00:00Z" (some sampleFileOk)).1 =
      getSubmissions emptyStorage ++
        [{ mkSubmission sampleSession sampleMeetingM1 true "n" "2025-01-01T00:00:00Z" with
            attachmentName := .str sampleFileOk.name,
            attachmentData := .str sampleFileOk.dataUrl }] ∧
      (handleSubmission emptyStorage sampleSession sampleMeetingM1 true "n"
          "2025-01-01T00:00:00Z" (some sampleFileOk)).2 = true) ∧
    handleSubmission emptyStorage sampleSession sampleMeetingM1 true "n"
        "2025-01-01T00:00:00Z" (some sampleFileBig) = (emptyStorage, false) :=
  ⟨(attachment_boundary_c6 emptyStorage sampleSession sampleMeetingM1 true "n"
      "2025-01-01T00:00:00Z" sampleFileOk).1 rfl,
   (attachment_boundary_c6 emptyStorage sampleSession sampleMeetingM1 true "n"
      "2025-01-01T00:00:00Z" sampleFileBig).2 (by decide)⟩

/-- Claim C5: credential validation — `validateUser` yields a result iff
some directory entry matches on trimmed pid and exact (untrimmed)
password, and any returned entry is such a matching directory entry. -/
theorem validateUser_correct_c5 :
    ∀ (pid password : String) (users : List User),
    ((validateUser pid password users).isSome ↔
      ∃ u ∈ users, jsTrim u.pid = jsTrim pid ∧ u.password = password) ∧
    (∀ u, validateUser pid password users = some u →
      u ∈ users ∧ jsTrim u.pid = jsTrim pid ∧ u.password = password) := by
  intro pid password users
  constructor
  · rw [validateUser, List.find?_isSome]
    constructor
    · rintro ⟨u, hu, hp⟩
      rw [Bool.and_eq_true, beq_iff_eq, beq_iff_eq] at hp
      exact ⟨u, hu, hp.1, hp.2⟩
    · rintro ⟨u, hu, h1, h2⟩
      exact ⟨u, hu, by rw [Bool.and_eq_true, beq_iff_eq, beq_iff_eq]; exact ⟨h1, h2⟩⟩
  · intro u hu
    have hm := List.mem_of_find?_eq_some hu
    have hp := List.find?_some hu
    rw [Bool.and_eq_true, beq_iff_eq, beq_iff_eq] at hp
    exact ⟨hm, hp.1, hp.2⟩

/-- Witness for C5: a pid with surrounding whitespace still matches its
directory entry. -/
theorem validateUser_correct_c5_witness :
    sampleUserSenator ∈ sampleUsers ∧
    jsTrim sampleUserSenator.pid = jsTrim " 12345678 " ∧
    sampleUserSenator.password = "senator1" :=
  (validateUser_correct_c5 " 12345678 " "senator1" sampleUsers).2 sampleUserSenator (by decide)

/-- JS strict equality is reflexive on the values occurring in records
(no `NaN` lives in `JStr`). -/
theorem JStr.strictEq_refl (a : JStr) : a.strictEq a = true := by
  cases a <;> simp [JStr.strictEq]

/-- The duplicate test holds between a record and itself. -/
theorem keyMatch_refl (s : Submission) : keyMatch s s = true := by
  simp [keyMatch, JStr.strictEq_refl]

/-- Unfolding the import loop one candidate at a time. -/
theorem importMerge_cons (acc : List Submission) (s : Submission) (rest : List Submission) :
    importMerge acc (s :: rest) = importMerge (importStep acc s) rest := rfl

/-- Each loop step either keeps the running list or appends the candidate. -/
theorem importStep_eq (acc : List Submission) (s : Submission) :
    importStep acc s = acc ∨ importStep acc s = acc ++ [s] := by
  by_cases hv : validEntry s = true
  · by_cases hd : (acc.any fun m => keyMatch m s) = true
    · left; simp [importStep, hv, hd]
    · right; simp [importStep, hv, hd]
  · left; simp [importStep, hv]

/-- The import loop only ever appends: the result is the starting list
followed by a sublist of the candidates. -/
theorem importMerge_append :
    ∀ (imported acc : List Submission),
    ∃ t, importMerge acc imported = acc ++ t ∧ t.Sublist imported := by
  intro imported
  induction imported with
  | nil => exact fun acc => ⟨[], by simp [importMerge], List.nil_sublist _⟩
  | cons s rest ih =>
    intro acc
    rcases importStep_eq acc s with h | h
    · obtain ⟨t, ht, hs⟩ := ih (importStep acc s)
      rw [importMerge_cons, ht, h]
      exact ⟨t, rfl, hs.cons s⟩
    · obtain ⟨t, ht, hs⟩ := ih (importStep acc s)
      rw [importMerge_cons, ht, h]
      exact ⟨s :: t, by simp, hs.cons₂ s⟩

/-- After the loop, every valid candidate has a key-matching record in the
result. -/
theorem importMerge_covers :
    ∀ (imported acc : List Submission) (s : Submission),
    s ∈ imported → validEntry s = true →
    ∃ m ∈ importMerge acc imported, keyMatch m s = true := by
  intro imported
  induction imported with
  | nil => intro acc s h; cases h
  | cons x rest ih =>
    intro acc s hmem hv
    rw [importMerge_cons]
    rcases List.mem_cons.mp hmem with rfl | hmem'
    · by_cases hd : (acc.any fun m => keyMatch m s) = true
      · obtain ⟨m, hm, hk⟩ := List.any_eq_true.mp hd
        have hstep : importStep acc s = acc := by simp [importStep, hv, hd]
        obtain ⟨t, ht, _⟩ := importMerge_append rest (importStep acc s)
        refine ⟨m, ?_, hk⟩
        rw [ht, hstep]
        exact List.mem_append_left _ hm
      · have hstep : importStep acc s = acc ++ [s] := by simp [importStep, hv, hd]
        obtain ⟨t, ht, _⟩ := importMerge_append rest (importStep acc s)
        refine ⟨s, ?_, keyMatch_refl s⟩
        rw [ht, hstep]
        exact List.mem_append_left _ (List.mem_append_right _ (List.mem_singleton.mpr rfl))
    · exact ih (importStep acc x) s hmem' hv

/-- When every valid candidate already has a key-matching record in the
starting list, the loop changes nothing. -/
theorem importMerge_stable :
    ∀ (imported acc : List Submission),
    (∀ s ∈ imported, validEntry s = true → (acc.any fun m => keyMatch m s) = true) →
    importMerge acc imported = acc := by
  intro imported
  induction imported with
  | nil => intro acc _; rfl
  | cons x rest ih =>
    intro acc h
    have hstep : importStep acc x = acc := by
      by_cases hv : validEntry x = true
      · have hd := h x (List.mem_cons_self x rest) hv
        simp [importStep, hv, hd]
      · simp [importStep, hv]
    rw [importMerge_cons, hstep]
    exact ih acc fun s hs hv => h s (List.mem_cons_of_mem x hs) hv

/-- Claim C3: import idempotence — importing the same candidate list twice
yields the same persisted collection as importing it once. -/
theorem import_idempotent_c3 :
    ∀ (st : GovStorage) (candidates : List Submission),
    getSubmissions (importSubmissions (importSubmissions st candidates).1 candidates).1 =
      getSubmissions (importSubmissions st candidates).1 ∧
    importMerge (importMerge (getSubmissions st) candidates) candidates =
      importMerge (getSubmissions st) candidates := by
  intro st candidates
  have key : ∀ existing : List Submission,
      importMerge (importMerge existing candidates) candidates =
        importMerge existing candidates := by
    intro existing
    apply importMerge_stable
    intro s hs hv
    obtain ⟨m, hm, hk⟩ := importMerge_covers candidates existing s hs hv
    exact List.any_eq_true.mpr ⟨m, hm, hk⟩
  exact ⟨key (getSubmissions st), key (getSubmissions st)⟩

/-- Counterexample to claim C4 as stated: importing a list whose single
entry already exists appends nothing, yet the reported imported count is
1, not 0 — the report is the raw candidate count, not the appended
count. -/
theorem import_count_c4_counterexample :
    (importSubmissions stOneSub [sampleSub]).2.1 = 1 ∧
    getSubmissions (importSubmissions stOneSub [sampleSub]).1 = getSubmissions stOneSub := by
  exact ⟨rfl, by decide⟩

/-- Claim C4 (amended): the reported imported count is the length of the
candidate list (duplicates and malformed entries included); the reported
total is the size of the resulting persisted collection, which is the
prior collection followed by the appended candidates. -/
theorem import_counts_c4_amended :
    ∀ (st : GovStorage) (candidates : List Submission),
    (importSubmissions st candidates).2.1 = candidates.length ∧
    (importSubmissions st candidates).2.2 =
      (getSubmissions (importSubmissions st candidates).1).length ∧
    ∃ appended,
      getSubmissions (importSubmissions st candidates).1 = getSubmissions st ++ appended ∧
      appended.Sublist candidates := by
  intro st candidates
  refine ⟨rfl, rfl, ?_⟩
  obtain ⟨t, ht, hs⟩ := importMerge_append candidates (getSubmissions st)
  exact ⟨t, ht, hs⟩

/-- Skipping invalid candidates is equivalent to filtering them out first. -/
theorem importMerge_filter :
    ∀ (imported acc : List Submission),
    importMerge acc imported = importMerge acc (imported.filter validEntry) := by
  intro imported
  induction imported with
  | nil => intro acc; rfl
  | cons x rest ih =>
    intro acc
    by_cases hv : validEntry x = true
    · rw [importMerge_cons, List.filter_cons_of_pos hv, importMerge_cons]
      exact ih (importStep acc x)
    · have hstep : importStep acc x = acc := by
        simp [importStep, hv]
      rw [importMerge_cons, hstep, List.filter_cons_of_neg (by simpa using hv)]
      exact ih acc

/-- Claim C10: import-validation edge cases — a candidate with a falsy
(absent, null, or empty-string) pid, meeting name, or timestamp is always
skipped; validity never depends on `meetingId`, so an entry missing only
`meetingId` passes validation and imports; and two such entries
deduplicate against each other on the absent `meetingId` with matching
pid and timestamp. -/
theorem import_validation_edge_c10 :
    ∀ (existing rest : List Submission) (s : Submission) (mid : JStr),
    (validEntry s = false → importMerge existing (s :: rest) = importMerge existing rest) ∧
    importMerge existing rest = importMerge existing (rest.filter validEntry) ∧
    validEntry { s with meetingId := mid } = validEntry s ∧
    importMerge [] [s10a] = [s10a] ∧
    importMerge [] [s10a, s10b] = [s10a] ∧
    importMerge [] [s10badNull, s10badEmpty, s10badUndef] = [] := by
  intro existing rest s mid
  refine ⟨?_, importMerge_filter rest existing, rfl, by decide, by decide, by decide⟩
  intro h
  have hstep : importStep existing s = existing := by simp [importStep, h]
  rw [importMerge_cons, hstep]

/-- Witness for C10's conditional part: the skip equation applied to a
candidate with a `null` pid. -/
theorem import_validation_edge_c10_witness :
    importMerge [sampleSub] [s10badNull, s10a] = importMerge [sampleSub] [s10a] :=
  (import_validation_edge_c10 [sampleSub] [s10a] s10badNull .undef).1 (by decide)

/-- Decimal digit characters are digits. -/
theorem digitChar_isDigit {d : Nat} (h : d < 10) : (digitChar d).isDigit = true := by
  interval_cases d <;> decide

/-- Code of the decimal digit character for `d < 10`. -/
theorem digitChar_toNat {d : Nat} (h : d < 10) : (digitChar d).toNat = 48 + d := by
  interval_cases d <;> decide

/-- With enough fuel, the decimal rendering consists of digits, is
nonempty, and folds back (with any accumulator) to the rendered number. -/
theorem natCharsAux_spec :
    ∀ (fuel n : Nat), n < fuel →
    (∀ c ∈ natCharsAux fuel n, c.isDigit = true) ∧
    natCharsAux fuel n ≠ [] ∧
    ∀ a : Nat,
      (natCharsAux fuel n).foldl (fun m c => m * 10 + (c.toNat - 48)) a =
        a * 10 ^ (natCharsAux fuel n).length + n := by
  intro fuel
  induction fuel with
  | zero => intro n h; exact absurd h (Nat.not_lt_zero n)
  | succ fuel ih =>
    intro n hn
    by_cases h10 : n < 10
    · have heq : natCharsAux (fuel + 1) n = [digitChar n] := by
        simp [natCharsAux, h10]
      rw [heq]
      refine ⟨?_, by simp, ?_⟩
      · intro c hc
        rw [List.mem_singleton] at hc
        subst hc
        exact digitChar_isDigit h10
      · intro a
        simp [digitChar_toNat h10]
    · have hgt : 10 ≤ n := Nat.le_of_not_lt h10
      have hdiv : n / 10 < fuel := by
        have h1 : n / 10 < n := Nat.div_lt_self (by omega) (by omega)
        omega
      obtain ⟨hdig, hne, hfold⟩ := ih (n / 10) hdiv
      have heq : natCharsAux (fuel + 1) n =
          natCharsAux fuel (n / 10) ++ [digitChar (n % 10)] := by
        simp [natCharsAux, h10]
      rw [heq]
      have hm10 : n % 10 < 10 := Nat.mod_lt n (by omega)
      refine ⟨?_, by simp, ?_⟩
      · intro c hc
        rcases List.mem_append.mp hc with hc | hc
        · exact hdig c hc
        · rw [List.mem_singleton] at hc
          subst hc
          exact digitChar_isDigit hm10
      · intro a
        rw [List.foldl_append]
        simp only [List.foldl]
        rw [hfold a, digitChar_toNat hm10, List.length_append]
        have hsub : 48 + n % 10 - 48 = n % 10 := by omega
        rw [hsub]
        have hmod : 10 * (n / 10) + n % 10 = n := Nat.div_add_mod n 10
        simp only [List.length_singleton]
        calc (a * 10 ^ (natCharsAux fuel (n / 10)).length + n / 10) * 10 + n % 10
            = a * 10 ^ ((natCharsAux fuel (n / 10)).length + 1) +
                (10 * (n / 10) + n % 10) := by ring
          _ = a * 10 ^ ((natCharsAux fuel (n / 10)).length + 1) + n := by rw [hmod]

/-- The decimal rendering of `n` is a nonempty digit string parsing back
to the nearest double to `n`. -/
theorem natChars_spec (n : Nat) :
    (∀ c ∈ natChars n, c.isDigit = true) ∧ natChars n ≠ [] ∧
    parseDigits (natChars n) = some (roundToDouble n) := by
  obtain ⟨h1, h2, h3⟩ := natCharsAux_spec (n + 1) n (Nat.lt_succ_self n)
  refine ⟨h1, h2, ?_⟩
  rw [parseDigits, if_neg (by simpa [List.isEmpty_iff] using h2)]
  rw [natChars] at *
  rw [h3 0]
  simp

/-- Integers up to `2 ^ 53` are exactly representable doubles. -/
theorem roundToDouble_eq_of_le {n : Nat} (h : n ≤ 2 ^ 53) : roundToDouble n = n := by
  rw [roundToDouble, if_pos h]

/-- Digit extraction inverts id generation up to double rounding: the
numeric content of `"m" + n` is the nearest double to `n`. -/
theorem idNumber_mId (n : Nat) : idNumber (mId n) = some (roundToDouble n) := by
  obtain ⟨h1, h2, h3⟩ := natChars_spec n
  rw [idNumber, mId, digitsOf]
  show parseDigits (List.filter Char.isDigit ('m' :: natChars n)) = some (roundToDouble n)
  rw [List.filter_cons_of_neg (by decide), List.filter_eq_self.mpr h1]
  exact h3

/-- Below `2 ^ 53` the extraction round-trip is exact. -/
theorem idNumber_mId_small (n : Nat) (h : n ≤ 2 ^ 53) : idNumber (mId n) = some n := by
  rw [idNumber_mId, roundToDouble_eq_of_le h]

/-- Folding `max` bounds the accumulator and every member. -/
theorem foldl_max_le :
    ∀ (l : List Nat) (b : Nat), b ≤ l.foldl max b ∧ ∀ a ∈ l, a ≤ l.foldl max b := by
  intro l
  induction l with
  | nil => intro b; exact ⟨Nat.le_refl b, by simp⟩
  | cons x xs ih =>
    intro b
    have h := ih (max b x)
    refine ⟨Nat.le_trans (Nat.le_max_left b x) h.1, ?_⟩
    intro a ha
    rcases List.mem_cons.mp ha with rfl | ha'
    · exact Nat.le_trans (Nat.le_max_right b a) h.1
    · exact h.2 a ha'

/-- Dropping zeros does not change a `foldl max` that starts at `0` (or
anywhere): `max b 0 = b`. -/
theorem foldl_max_filter_ne_zero :
    ∀ (l : List Nat) (b : Nat), (l.filter fun n => n ≠ 0).foldl max b = l.foldl max b := by
  intro l
  induction l with
  | nil => intro b; rfl
  | cons x xs ih =>
    intro b
    by_cases hx : x = 0
    · subst hx
      rw [List.filter_cons_of_neg (by simp)]
      rw [ih b]
      show xs.foldl max b = xs.foldl max (max b 0)
      rw [Nat.max_zero]
    · rw [List.filter_cons_of_pos (by simp [hx])]
      show (xs.filter fun n => n ≠ 0).foldl max (max b x) = xs.foldl max (max b x)
      exact ih (max b x)

/-- Folding `max` stays below any bound dominating the start and every
member. -/
theorem foldl_max_le_bound :
    ∀ (l : List Nat) (b B : Nat), b ≤ B → (∀ a ∈ l, a ≤ B) → l.foldl max b ≤ B := by
  intro l
  induction l with
  | nil => intro b B hb _; exact hb
  | cons x xs ih =>
    intro b B hb h
    exact ih (max b x) B (max_le hb (h x (List.mem_cons_self x xs)))
      fun a ha => h a (List.mem_cons_of_mem x ha)

/-- Every extracted id number comes from some meeting's id. -/
theorem mem_meetingIdNums {ms : List Meeting} {k : Nat} (hk : k ∈ meetingIdNums ms) :
    ∃ m ∈ ms, idNumber m.id = some k := by
  rw [meetingIdNums] at hk
  obtain ⟨o, ho, hoeq⟩ := List.mem_filterMap.mp (List.mem_filter.mp hk).1
  obtain ⟨m, hm, hmeq⟩ := List.mem_map.mp ho
  refine ⟨m, hm, ?_⟩
  rw [hmeq]
  exact hoeq

/-- Source `generateMeetingId` always renders the double rounding of one
plus the fold-max of the extracted id numbers (the empty-list branch
coincides). -/
theorem generateMeetingId_eq (ms : List Meeting) :
    generateMeetingId ms = mId (roundToDouble ((meetingIdNums ms).foldl max 0 + 1)) := by
  rw [generateMeetingId]
  cases h : meetingIdNums ms with
  | nil => simp [h]
  | cons x xs => simp [h]

/-- Counterexample to claim C8 as stated: for the existing id
`"m9007199254740992"` (numeric content `2 ^ 53`), the double addition
`max + 1` rounds back to `max` (ties to even), so the generator returns
the existing id itself — the returned id does not differ from every id
already in the list, and it is not a next unused suffix. -/
theorem generateMeetingId_c8_counterexample :
    bigMeeting.id = "m9007199254740992" ∧
    generateMeetingId [bigMeeting] = "m9007199254740992" :=
  ⟨rfl, by decide⟩

/-- Claim C8 (amended): meeting id generation below the doubles'
exact-integer threshold — when every extracted id number is below
`2 ^ 53`, the generated id differs from every existing id; on a list
whose ids are exactly `"m" + n` for numbers `ns` all below `2 ^ 53`, it
is `"m"` followed by one plus the maximum of `ns`; and for existing ids
`["m1", "m3"]` it produces `"m4"`. -/
theorem generateMeetingId_c8_amended :
    ∀ (ms : List Meeting) (ns : List Nat),
    ((∀ m ∈ ms, (idNumber m.id).getD 0 < 2 ^ 53) →
      ∀ m ∈ ms, m.id ≠ generateMeetingId ms) ∧
    (ms.map Meeting.id = ns.map mId → (∀ n ∈ ns, n < 2 ^ 53) →
      generateMeetingId ms = mId (ns.foldl max 0 + 1)) ∧
    generateMeetingId [sampleMeetingM1, sampleMeetingM3] = "m4" := by
  intro ms ns
  refine ⟨?_, ?_, by decide⟩
  · intro hbound m hm heq
    have hknums : ∀ k ∈ meetingIdNums ms, k ≤ 2 ^ 53 - 1 := by
      intro k hk
      obtain ⟨m', hm', hsome⟩ := mem_meetingIdNums hk
      have hb := hbound m' hm'
      rw [hsome] at hb
      simp only [Option.getD_some] at hb
      omega
    have hmx : (meetingIdNums ms).foldl max 0 ≤ 2 ^ 53 - 1 :=
      foldl_max_le_bound _ 0 _ (Nat.zero_le _) hknums
    have hsmall : (meetingIdNums ms).foldl max 0 + 1 ≤ 2 ^ 53 := by omega
    rw [generateMeetingId_eq, roundToDouble_eq_of_le hsmall] at heq
    have hid : idNumber m.id = some ((meetingIdNums ms).foldl max 0 + 1) := by
      rw [heq, idNumber_mId, roundToDouble_eq_of_le hsmall]
    have hmem : (meetingIdNums ms).foldl max 0 + 1 ∈ meetingIdNums ms := by
      rw [meetingIdNums]
      apply List.mem_filter.mpr
      refine ⟨?_, by simp⟩
      apply List.mem_filterMap.mpr
      exact ⟨idNumber m.id, List.mem_map_of_mem _ hm, by rw [hid]; rfl⟩
    have hle := (foldl_max_le (meetingIdNums ms) 0).2 _ hmem
    omega
  · intro hmap hns
    have h1 : (ms.map fun m => idNumber m.id) = ns.map some := by
      have hcomp : (ms.map fun m => idNumber m.id) = (ms.map Meeting.id).map idNumber := by
        rw [List.map_map]
        rfl
      rw [hcomp, hmap, List.map_map]
      exact List.map_congr_left fun a ha => idNumber_mId_small a (Nat.le_of_lt (hns a ha))
    have h2 : meetingIdNums ms = ns.filter fun n => n ≠ 0 := by
      rw [meetingIdNums, h1]
      congr 1
      simp
    have hmax : ns.foldl max 0 ≤ 2 ^ 53 - 1 :=
      foldl_max_le_bound ns 0 _ (Nat.zero_le _) fun a ha => by
        have := hns a ha
        omega
    rw [generateMeetingId_eq, h2, foldl_max_filter_ne_zero,
      roundToDouble_eq_of_le (by omega)]

/-- Witness for C8 (amended) at the spec's scenario `["m1", "m3"]`. -/
theorem generateMeetingId_c8_amended_witness :
    sampleMeetingM1.id ≠ generateMeetingId [sampleMeetingM1, sampleMeetingM3] ∧
    generateMeetingId [sampleMeetingM1, sampleMeetingM3] = mId ([1, 3].foldl max 0 + 1) :=
  ⟨(generateMeetingId_c8_amended [sampleMeetingM1, sampleMeetingM3] [1, 3]).1 (by decide)
      sampleMeetingM1 (by decide),
   (generateMeetingId_c8_amended [sampleMeetingM1, sampleMeetingM3] [1, 3]).2.1 (by decide)
      (by decide)⟩

/-- Add handler, found-record branch, committee already present: no change. -/
theorem addAssignList_cons_found_dup (pid c : String) (a : Assignment)
    (rest : List Assignment) (h : (a.pid == pid) = true) (hc : c ∈ a.committees) :
    addAssignList pid c (a :: rest) = a :: rest := by
  simp [addAssignList, h, hc]

/-- Add handler, found-record branch, new committee: append then sort. -/
theorem addAssignList_cons_found_new (pid c : String) (a : Assignment)
    (rest : List Assignment) (h : (a.pid == pid) = true) (hc : c ∉ a.committees) :
    addAssignList pid c (a :: rest) =
      { a with committees := jsSortStrings (a.committees ++ [c]) } :: rest := by
  simp [addAssignList, h, hc]

/-- Add handler, head does not match: recurse past it. -/
theorem addAssignList_cons_miss (pid c : String) (a : Assignment)
    (rest : List Assignment) (h : (a.pid == pid) = false) :
    addAssignList pid c (a :: rest) = a :: addAssignList pid c rest := by
  simp [addAssignList, h]

/-- The pids after an add: unchanged when the pid was already present,
otherwise the new pid is appended. -/
theorem addAssignList_map_pid (pid c : String) :
    ∀ l : List Assignment,
    (addAssignList pid c l).map Assignment.pid =
      if l.any fun a => a.pid == pid then l.map Assignment.pid
      else l.map Assignment.pid ++ [pid] := by
  intro l
  induction l with
  | nil => simp [addAssignList]
  | cons a rest ih =>
    by_cases hp : (a.pid == pid) = true
    · by_cases hc : c ∈ a.committees
      · rw [addAssignList_cons_found_dup pid c a rest hp hc]
        simp [List.any_cons, hp]
      · rw [addAssignList_cons_found_new pid c a rest hp hc]
        simp [List.any_cons, hp]
    · rw [addAssignList_cons_miss pid c a rest (by simpa using hp)]
      rw [List.map_cons, ih, List.map_cons]
      by_cases hr : (rest.any fun a => a.pid == pid) = true
      · simp [List.any_cons, hp, hr]
      · simp [List.any_cons, hp, hr]

/-- The add handler's list update preserves the assignment invariant. -/
theorem addAssignList_wf (pid c : String) :
    ∀ l : List Assignment, AssignWF l → AssignWF (addAssignList pid c l) := by
  intro l
  induction l with
  | nil =>
    intro _
    refine ⟨by simp [addAssignList], ?_⟩
    intro a ha
    simp [addAssignList] at ha
    subst ha
    simp
  | cons a rest ih =>
    intro hwf
    obtain ⟨hpids, hcom⟩ := hwf
    rw [List.map_cons, List.nodup_cons] at hpids
    obtain ⟨hnotin, hrest⟩ := hpids
    by_cases hp : (a.pid == pid) = true
    · by_cases hc : c ∈ a.committees
      · rw [addAssignList_cons_found_dup pid c a rest hp hc]
        exact ⟨by rw [List.map_cons, List.nodup_cons]; exact ⟨hnotin, hrest⟩, hcom⟩
      · rw [addAssignList_cons_found_new pid c a rest hp hc]
        constructor
        · rw [List.map_cons, List.nodup_cons]
          exact ⟨hnotin, hrest⟩
        · intro b hb
          rcases List.mem_cons.mp hb with rfl | hb'
          · have hnd : (a.committees ++ [c]).Nodup := by
              rw [List.nodup_append]
              refine ⟨hcom a (List.mem_cons_self a rest), List.nodup_singleton c, ?_⟩
              intro x hx hxc
              rw [List.mem_singleton] at hxc
              subst hxc
              exact hc hx
            exact ((List.perm_insertionSort (· ≤ ·) (a.committees ++ [c])).nodup_iff).mpr hnd
          · exact hcom b (List.mem_cons_of_mem a hb')
    · rw [addAssignList_cons_miss pid c a rest (by simpa using hp)]
      have hihwf := ih ⟨hrest, fun b hb => hcom b (List.mem_cons_of_mem a hb)⟩
      obtain ⟨hpids', hcom'⟩ := hihwf
      constructor
      · rw [List.map_cons, List.nodup_cons]
        refine ⟨?_, hpids'⟩
        rw [addAssignList_map_pid]
        by_cases hr : (rest.any fun x => x.pid == pid) = true
        · simpa [hr] using hnotin
        · have hne : a.pid ≠ pid := by simpa using hp
          simp [hr, hnotin, hne]
      · intro b hb
        rcases List.mem_cons.mp hb with rfl | hb'
        · exact hcom b (List.mem_cons_self b rest)
        · exact hcom' b hb'

/-- After an actual addition (the committee was nowhere recorded for this
pid), the target pid's committees list is sorted. -/
theorem addAssignList_sorted (pid c : String) :
    ∀ l : List Assignment, (l.map Assignment.pid).Nodup →
    (∀ a ∈ l, a.pid = pid → c ∉ a.committees) →
    ∀ a' ∈ addAssignList pid c l, a'.pid = pid → List.Sorted (· ≤ ·) a'.committees := by
  intro l
  induction l with
  | nil =>
    intro _ _ a' ha' _
    simp [addAssignList] at ha'
    subst ha'
    simp
  | cons a rest ih =>
    intro hnd hnotc a' ha' hpid'
    rw [List.map_cons, List.nodup_cons] at hnd
    by_cases hp : (a.pid == pid) = true
    · have hc : c ∉ a.committees := hnotc a (List.mem_cons_self a rest) (by simpa using hp)
      rw [addAssignList_cons_found_new pid c a rest hp hc] at ha'
      rcases List.mem_cons.mp ha' with rfl | h'
      · show List.Sorted (· ≤ ·) (jsSortStrings (a.committees ++ [c]))
        exact List.sorted_insertionSort (· ≤ ·) (a.committees ++ [c])
      · exfalso
        have hmem : a'.pid ∈ rest.map Assignment.pid := List.mem_map_of_mem _ h'
        rw [hpid'] at hmem
        have hap : a.pid = pid := by simpa using hp
        rw [← hap] at hmem
        exact hnd.1 hmem
    · rw [addAssignList_cons_miss pid c a rest (by simpa using hp)] at ha'
      rcases List.mem_cons.mp ha' with rfl | h'
      · exact absurd hpid' (by simpa using hp)
      · exact ih hnd.2 (fun b hb hbp => hnotc b (List.mem_cons_of_mem a hb) hbp) a' h' hpid'

/-- Adding a pid-committee pair that is already recorded changes nothing. -/
theorem addAssignList_mem_unchanged (pid c : String) :
    ∀ l : List Assignment, (l.map Assignment.pid).Nodup →
    (∃ a ∈ l, a.pid = pid ∧ c ∈ a.committees) →
    addAssignList pid c l = l := by
  intro l
  induction l with
  | nil =>
    intro _ h
    obtain ⟨a, ha, _⟩ := h
    cases ha
  | cons a rest ih =>
    intro hnd hex
    rw [List.map_cons, List.nodup_cons] at hnd
    obtain ⟨b, hb, hbp, hbc⟩ := hex
    by_cases hp : (a.pid == pid) = true
    · have hc : c ∈ a.committees := by
        rcases List.mem_cons.mp hb with rfl | hb'
        · exact hbc
        · exfalso
          have hmem : b.pid ∈ rest.map Assignment.pid := List.mem_map_of_mem _ hb'
          rw [hbp] at hmem
          have hap : a.pid = pid := by simpa using hp
          rw [← hap] at hmem
          exact hnd.1 hmem
      rw [addAssignList_cons_found_dup pid c a rest hp hc]
    · have hb' : b ∈ rest := by
        rcases List.mem_cons.mp hb with rfl | hb'
        · exact absurd hbp (by simpa using hp)
        · exact hb'
      rw [addAssignList_cons_miss pid c a rest (by simpa using hp),
        ih hnd.2 ⟨b, hb', hbp, hbc⟩]

/-- Definitional unfolding of the remove handler's update at a cons. -/
theorem removeAssignList_cons (pid c : String) (a : Assignment) (rest : List Assignment) :
    removeAssignList pid c (a :: rest) =
      if (a.pid == pid) = true then
        (if (a.committees.filter fun x => x ≠ c).isEmpty = true then rest
         else { a with committees := a.committees.filter fun x => x ≠ c } :: rest)
      else a :: removeAssignList pid c rest := rfl

/-- The pids after a removal form a sublist of the prior pids. -/
theorem removeAssignList_pid_sublist (pid c : String) :
    ∀ l : List Assignment,
    ((removeAssignList pid c l).map Assignment.pid).Sublist (l.map Assignment.pid) := by
  intro l
  induction l with
  | nil => simp [removeAssignList]
  | cons a rest ih =>
    by_cases hp : (a.pid == pid) = true
    · by_cases he : (a.committees.filter fun x => x ≠ c).isEmpty = true
      · rw [removeAssignList_cons, if_pos hp, if_pos he, List.map_cons]
        exact (List.Sublist.refl _).cons _
      · rw [removeAssignList_cons, if_pos hp, if_neg he, List.map_cons, List.map_cons]
    · rw [removeAssignList_cons, if_neg hp, List.map_cons, List.map_cons]
      exact ih.cons₂ _

/-- The remove handler's list update preserves the assignment invariant. -/
theorem removeAssignList_wf (pid c : String) :
    ∀ l : List Assignment, AssignWF l → AssignWF (removeAssignList pid c l) := by
  intro l
  induction l with
  | nil => intro h; simpa [removeAssignList] using h
  | cons a rest ih =>
    intro hwf
    obtain ⟨hpids, hcom⟩ := hwf
    rw [List.map_cons, List.nodup_cons] at hpids
    have hwfrest : AssignWF rest :=
      ⟨hpids.2, fun b hb => hcom b (List.mem_cons_of_mem a hb)⟩
    by_cases hp : (a.pid == pid) = true
    · by_cases he : (a.committees.filter fun x => x ≠ c).isEmpty = true
      · rw [removeAssignList_cons, if_pos hp, if_pos he]
        exact hwfrest
      · rw [removeAssignList_cons, if_pos hp, if_neg he]
        constructor
        · rw [List.map_cons, List.nodup_cons]
          exact ⟨hpids.1, hpids.2⟩
        · intro b hb
          rcases List.mem_cons.mp hb with rfl | hb'
          · exact (hcom a (List.mem_cons_self a rest)).filter _
          · exact hcom b (List.mem_cons_of_mem a hb')
    · rw [removeAssignList_cons, if_neg hp]
      obtain ⟨hpids', hcom'⟩ := ih hwfrest
      constructor
      · rw [List.map_cons, List.nodup_cons]
        refine ⟨?_, hpids'⟩
        intro hmem
        exact hpids.1 ((removeAssignList_pid_sublist pid c rest).subset hmem)
      · intro b hb
        rcases List.mem_cons.mp hb with rfl | hb'
        · exact hcom b (List.mem_cons_self b rest)
        · exact hcom' b hb'

/-- Claim C9: committee-assignment invariant — on a well-formed collection
(each pid at most once, committee lists duplicate-free), the admin add and
remove operations preserve well-formedness; adding an already-recorded
pid-committee pair changes nothing; and after an actual addition the
target senator's committees list is sorted. -/
theorem assignments_invariant_c9 :
    ∀ (as : List Assignment) (p c : String), AssignWF as →
    AssignWF (addAssignment as p c) ∧
    AssignWF (removeAssignment as p c) ∧
    ((∃ a ∈ as, a.pid = jsTrim p ∧ jsTrim c ∈ a.committees) → addAssignment as p c = as) ∧
    (jsTrim p ≠ "" → jsTrim c ≠ "" →
      (∀ a ∈ as, a.pid = jsTrim p → jsTrim c ∉ a.committees) →
      ∀ a ∈ addAssignment as p c, a.pid = jsTrim p →
        List.Sorted (· ≤ ·) a.committees) := by
  intro as p c hwf
  by_cases hg : jsTrim p = "" ∨ jsTrim c = ""
  · have ha : addAssignment as p c = as := by
      show (if jsTrim p = "" ∨ jsTrim c = "" then as
        else addAssignList (jsTrim p) (jsTrim c) as) = as
      exact if_pos hg
    have hr : removeAssignment as p c = as := by
      show (if jsTrim p = "" ∨ jsTrim c = "" then as
        else removeAssignList (jsTrim p) (jsTrim c) as) = as
      exact if_pos hg
    rw [ha, hr]
    refine ⟨hwf, hwf, fun _ => rfl, ?_⟩
    intro hp hc _ a _ _
    exact absurd hg (by simp [hp, hc])
  · have ha : addAssignment as p c = addAssignList (jsTrim p) (jsTrim c) as := by
      show (if jsTrim p = "" ∨ jsTrim c = "" then as
        else addAssignList (jsTrim p) (jsTrim c) as) = _
      exact if_neg hg
    have hr : removeAssignment as p c = removeAssignList (jsTrim p) (jsTrim c) as := by
      show (if jsTrim p = "" ∨ jsTrim c = "" then as
        else removeAssignList (jsTrim p) (jsTrim c) as) = _
      exact if_neg hg
    rw [ha, hr]
    refine ⟨addAssignList_wf _ _ as hwf, removeAssignList_wf _ _ as hwf, ?_, ?_⟩
    · intro hex
      exact addAssignList_mem_unchanged _ _ as hwf.1 hex
    · intro _ _ hnot a hmem hpid
      exact addAssignList_sorted _ _ as hwf.1 hnot a hmem hpid

/-- Witness for C9 on the seed assignments: invariants after add and
remove, no-op re-add of a recorded pair (pid given with whitespace), and
sortedness of a freshly added senator's committees. -/
theorem assignments_invariant_c9_witness :
    AssignWF (addAssignment sampleAssignments "12345678" "Student Life Committee") ∧
    AssignWF (removeAssignment sampleAssignments "12345678" "Academic Affairs Committee") ∧
    addAssignment sampleAssignments " 12345678 " "Academic Affairs Committee" =
      sampleAssignments ∧
    List.Sorted (· ≤ ·)
      (Assignment.committees ⟨"99999999", ["Student Life Committee"]⟩) :=
  ⟨(assignments_invariant_c9 sampleAssignments "12345678" "Student Life Committee"
      ⟨by decide, by decide⟩).1,
   (assignments_invariant_c9 sampleAssignments "12345678" "Academic Affairs Committee"
      ⟨by decide, by decide⟩).2.1,
   (assignments_invariant_c9 sampleAssignments " 12345678 " "Academic Affairs Committee"
      ⟨by decide, by decide⟩).2.2.1
      ⟨⟨"12345678", ["Academic Affairs Committee"]⟩, by decide, by decide, by decide⟩,
   (assignments_invariant_c9 sampleAssignments "99999999" "Student Life Committee"
      ⟨by decide, by decide⟩).2.2.2 (by decide) (by decide) (by decide)
      ⟨"99999999", ["Student Life Committee"]⟩ (by decide) (by decide)⟩
